import Mathlib

/-!
Verification of the moltworker protocol-relay layer.

The development shallowly embeds the chunk codec, constant-time comparator,
error-message transform and close-propagation handlers of the repository:

* `messageToChunks`, `chunksToMessage` — src/gateway/sync.ts lines 152-206
* `timingSafeEqual` — src/gateway/sync.ts lines 376-386
* `transformErrorMessage` — src/index.ts lines 51-61
* close handlers of the generic relay — src/index.ts lines 467-498
* the browser→client forwarding guard — src/gateway/sync.ts lines 292-303

JavaScript strings are modelled as lists of UTF-16 code units (`List Nat`)
where code-unit-level behaviour matters (`.length`, `.slice`, `charCodeAt`,
`includes`), and as Lean `String` (sequences of Unicode scalar values) on the
codec path, where the source immediately applies `TextEncoder`/`TextDecoder`.
`Uint8Array` values are lists of byte values.  Thrown exceptions are modelled
with `Except`.
-/

/-- Chunking-protocol constant: size of the `Uint32` length header (sync.ts line 145). -/
def HEADER_SIZE : Nat := 4

/-- Chunking-protocol constant: maximum chunk size (sync.ts line 146). -/
def MAX_MESSAGE_SIZE : Nat := 1048575

/-- Chunking-protocol constant: payload capacity of the first chunk (sync.ts line 147). -/
def FIRST_CHUNK_DATA_SIZE : Nat := MAX_MESSAGE_SIZE - HEADER_SIZE

/-- UTF-8 encoding of one Unicode scalar value, as produced by `TextEncoder`. -/
def utf8Bytes (c : Char) : List Nat :=
  if c.toNat < 0x80 then [c.toNat]
  else if c.toNat < 0x800 then [0xC0 + c.toNat / 0x40, 0x80 + c.toNat % 0x40]
  else if c.toNat < 0x10000 then
    [0xE0 + c.toNat / 0x1000, 0x80 + c.toNat / 0x40 % 0x40, 0x80 + c.toNat % 0x40]
  else
    [0xF0 + c.toNat / 0x40000, 0x80 + c.toNat / 0x1000 % 0x40, 0x80 + c.toNat / 0x40 % 0x40,
      0x80 + c.toNat % 0x40]

/-- `new TextEncoder().encode(s)`: the UTF-8 bytes of the whole string. -/
def utf8Encode (s : String) : List Nat :=
  s.data.flatMap utf8Bytes

/-- The Unicode replacement character U+FFFD emitted by `TextDecoder` on malformed input. -/
def replacementChar : Char := Char.ofNat 0xFFFD

/-- UTF-8 decoding of a byte list, as performed by `new TextDecoder().decode`.
On well-formed input (the only inputs the claims exercise) this inverts
`utf8Encode`; malformed sequences yield replacement characters.  The fuel
argument (instantiated with the list length in `utf8Decode`) makes the
recursion structural; each step consumes at least one byte. -/
def utf8DecodeGo : Nat → List Nat → List Char
  | 0, _ => []
  | _ + 1, [] => []
  | fuel + 1, b0 :: t0 =>
    if b0 < 0x80 then Char.ofNat b0 :: utf8DecodeGo fuel t0
    else if b0 < 0xC0 then replacementChar :: utf8DecodeGo fuel t0
    else if b0 < 0xE0 then
      match t0 with
      | b1 :: t1 =>
        if 0x80 ≤ b1 ∧ b1 < 0xC0 then
          Char.ofNat ((b0 - 0xC0) * 0x40 + (b1 - 0x80)) :: utf8DecodeGo fuel t1
        else replacementChar :: utf8DecodeGo fuel t0
      | [] => [replacementChar]
    else if b0 < 0xF0 then
      match t0 with
      | b1 :: b2 :: t2 =>
        if 0x80 ≤ b1 ∧ b1 < 0xC0 ∧ 0x80 ≤ b2 ∧ b2 < 0xC0 then
          Char.ofNat ((b0 - 0xE0) * 0x1000 + (b1 - 0x80) * 0x40 + (b2 - 0x80)) ::
            utf8DecodeGo fuel t2
        else replacementChar :: utf8DecodeGo fuel t0
      | _ => [replacementChar]
    else if b0 < 0xF8 then
      match t0 with
      | b1 :: b2 :: b3 :: t3 =>
        if 0x80 ≤ b1 ∧ b1 < 0xC0 ∧ 0x80 ≤ b2 ∧ b2 < 0xC0 ∧ 0x80 ≤ b3 ∧ b3 < 0xC0 then
          Char.ofNat
              ((b0 - 0xF0) * 0x40000 + (b1 - 0x80) * 0x1000 + (b2 - 0x80) * 0x40 +
                (b3 - 0x80)) ::
            utf8DecodeGo fuel t3
        else replacementChar :: utf8DecodeGo fuel t0
      | _ => [replacementChar]
    else replacementChar :: utf8DecodeGo fuel t0

/-- `new TextDecoder().decode(bytes)` as a Lean `String`. -/
def utf8Decode (l : List Nat) : String :=
  String.mk (utf8DecodeGo l.length l)

/-- The four bytes written by `view.setUint32(0, n, true)`: `n` as an unsigned
32-bit little-endian integer (wrapping modulo 2^32, as `DataView` does). -/
def le32 (n : Nat) : List Nat :=
  [n % 256, n / 256 % 256, n / 65536 % 256, n / 16777216 % 256]

/-- The value read by `view.getUint32(0, true)` from the first four bytes. -/
def getUint32LE (l : List Nat) : Nat :=
  l.getD 0 0 + 256 * l.getD 1 0 + 65536 * l.getD 2 0 + 16777216 * l.getD 3 0

/-- Continuation-chunk loop of `messageToChunks` (sync.ts lines 163-165):
split a byte list into consecutive slices of at most `MAX_MESSAGE_SIZE` bytes.
The fuel argument (instantiated with the list length in `chop`) makes the
recursion structural; each step consumes at least one byte. -/
def chopGo : Nat → List Nat → List (List Nat)
  | 0, _ => []
  | _, [] => []
  | fuel + 1, b :: t =>
    (b :: t).take MAX_MESSAGE_SIZE :: chopGo fuel ((b :: t).drop MAX_MESSAGE_SIZE)

/-- Split a byte list into consecutive slices of at most `MAX_MESSAGE_SIZE` bytes. -/
def chop (l : List Nat) : List (List Nat) :=
  chopGo l.length l

/-- `messageToChunks` (sync.ts lines 152-167): UTF-8 encode the message, emit a
first chunk of `header ++ payload.take FIRST_CHUNK_DATA_SIZE` (the allocation
`Math.min(MAX_MESSAGE_SIZE, HEADER_SIZE + length)` equals the length of that
list), then raw continuation slices of at most `MAX_MESSAGE_SIZE` bytes. -/
def messageToChunks (data : String) : List (List Nat) :=
  (le32 (utf8Encode data).length ++ (utf8Encode data).take FIRST_CHUNK_DATA_SIZE) ::
    chop ((utf8Encode data).drop FIRST_CHUNK_DATA_SIZE)

/-- Message of the `Error` thrown by `chunksToMessage` on reassembly overflow
(sync.ts line 188). -/
def protocolViolationMsg (sessionId : String) : String :=
  "Should have gotten the exact number of bytes but we got more. SessionID: " ++ sessionId

/-- Message of the `RangeError` thrown by `view.getUint32(0, true)` when the
first chunk's buffer holds fewer than `HEADER_SIZE` bytes (sync.ts line 180).
In `bridgeWebSockets` every queued chunk owns its buffer exactly, so the
`DataView` bound is the chunk length. -/
def rangeErrorMsg : String := "RangeError: Offset is outside the bounds of the DataView"

/-- The scan loop of `chunksToMessage` (sync.ts lines 182-204): starting from a
running total, add each chunk's length; fail when the total exceeds the
expected byte count, report the current index when it matches exactly, and
report `none` when the queue runs out first. -/
def findCompleteGo (sessionId : String) (expected : Int) :
    Int → Nat → List (List Nat) → Except String (Option Nat)
  | _, _, [] => .ok none
  | total, i, cur :: rest =>
    let total' := total + cur.length
    if expected < total' then .error (protocolViolationMsg sessionId)
    else if total' = expected then .ok (some i)
    else findCompleteGo sessionId expected total' (i + 1) rest

/-- `chunksToMessage` (sync.ts lines 172-206).  The returned pair is the
optional completed message together with the queue as left after the call
(the source mutates `chunks` in place via `splice`).  When the scan finds the
exact byte count at index `i`, the first `i + 1` chunks are consumed, the
4-byte header is stripped from the first, and the concatenation is decoded. -/
def chunksToMessage (chunks : List (List Nat)) (sessionId : String) :
    Except String (Option String × List (List Nat)) :=
  match chunks with
  | [] => .ok (none, [])
  | firstChunk :: _ =>
    if firstChunk.length < HEADER_SIZE then .error rangeErrorMsg
    else
      match findCompleteGo sessionId (getUint32LE firstChunk : Int) (-(HEADER_SIZE : Int)) 0
          chunks with
      | .error e => .error e
      | .ok none => .ok (none, chunks)
      | .ok (some i) =>
        .ok
          (some (utf8Decode
            (firstChunk.drop HEADER_SIZE ++ ((chunks.take (i + 1)).drop 1).flatMap id)),
            chunks.drop (i + 1))

/-- Running byte total of the decoder over the first `k` queued chunks:
initialized to `-HEADER_SIZE`, adding each chunk's length in order
(sync.ts lines 182-185). -/
def prefTotal (chunks : List (List Nat)) (k : Nat) : Int :=
  (((chunks.take k).map List.length).sum : Int) - (HEADER_SIZE : Int)

/-- UTF-16 code units of one Unicode scalar value (JavaScript string element). -/
def charUtf16Units (c : Char) : List Nat :=
  if c.toNat < 0x10000 then [c.toNat]
  else [0xD800 + (c.toNat - 0x10000) / 0x400, 0xDC00 + (c.toNat - 0x10000) % 0x400]

/-- A JavaScript string as its list of UTF-16 code units. -/
def strUnits (s : String) : List Nat :=
  s.data.flatMap charUtf16Units

/-- `haystack.includes(needle)` on JavaScript strings (code-unit substring search). -/
def hasSubstring (hs needle : List Nat) : Bool :=
  if needle.isPrefixOf hs then true
  else
    match hs with
    | [] => false
    | _ :: t => hasSubstring t needle

/-- `transformErrorMessage` (index.ts lines 51-61): substring-driven rewrite of
gateway error messages, first match wins. -/
def transformErrorMessage (message host : List Nat) : List Nat :=
  if hasSubstring message (strUnits "gateway token missing") ||
      hasSubstring message (strUnits "gateway token mismatch") then
    strUnits "Invalid or missing token. Visit https://" ++ host ++
      strUnits "?token=\x7bREPLACE_WITH_YOUR_TOKEN\x7d"
  else if hasSubstring message (strUnits "pairing required") then
    strUnits "Pairing required. Visit https://" ++ host ++ strUnits "/_admin/"
  else message

/-- Reason computation of the `containerWs` close handler (index.ts lines
478-482): transform, then if `reason.length > 123` (JavaScript `.length`,
i.e. UTF-16 code units) keep `reason.slice(0, 120)` and append `"..."`. -/
def forwardCloseReason (reason host : List Nat) : List Nat :=
  if 123 < (transformErrorMessage reason host).length then
    (transformErrorMessage reason host).take 120 ++ strUnits "..."
  else transformErrorMessage reason host

/-- Which handle of the relayed pair emitted the close event. -/
inductive Side
  | client
  | container
deriving DecidableEq

/-- Close propagation of the generic relay (index.ts lines 467-487): the
`(code, reason)` passed to the peer's `close`.  A client (serverWs) close is
forwarded to the container verbatim; a container close is forwarded to the
client with the transformed, truncated reason. -/
def relayClose : Side → (host : List Nat) → (code : Nat) → (reason : List Nat) → Nat × List Nat
  | Side.client, _, code, reason => (code, reason)
  | Side.container, host, code, reason => (code, forwardCloseReason reason host)

/-- UTF-8 byte count of a UTF-16 code-unit sequence as sent on the wire:
ASCII units take 1 byte, units below 0x800 take 2, surrogate pairs take 4,
all other units (including lone surrogates, encoded as U+FFFD) take 3. -/
def utf8LenUnitsGo : Nat → List Nat → Nat
  | 0, _ => 0
  | _ + 1, [] => 0
  | fuel + 1, c :: rest =>
    if c < 0x80 then 1 + utf8LenUnitsGo fuel rest
    else if c < 0x800 then 2 + utf8LenUnitsGo fuel rest
    else if 0xD800 ≤ c ∧ c < 0xDC00 then
      match rest with
      | d :: rest' =>
        if 0xDC00 ≤ d ∧ d < 0xE000 then 4 + utf8LenUnitsGo fuel rest'
        else 3 + utf8LenUnitsGo fuel rest
      | [] => 3
    else 3 + utf8LenUnitsGo fuel rest

/-- UTF-8 byte count of a UTF-16 code-unit sequence (see `utf8LenUnitsGo`). -/
def utf8LenUnits (l : List Nat) : Nat :=
  utf8LenUnitsGo l.length l

/-- JavaScript truthiness of the `string | null` result of `chunksToMessage`:
`null` and the empty string are falsy. -/
def jsTruthy : Option String → Bool
  | none => false
  | some s => s != ""

/-- Browser→client message handler of `bridgeWebSockets` (sync.ts lines
292-303): push the incoming binary frame onto the reassembly queue, run the
decoder, and forward the decoded message only when it is truthy (`if
(message)`).  Returns the queue after the call and the message forwarded to
the client, if any.  A decode exception is caught and logged: nothing is
forwarded and the queue keeps the pushed chunks. -/
def handleBrowserMessage (queue : List (List Nat)) (data : List Nat) (sessionId : String) :
    List (List Nat) × Option String :=
  let queue' := queue ++ [data]
  match chunksToMessage queue' sessionId with
  | .error _ => (queue', none)
  | .ok (m, rest) => (rest, if jsTruthy m then m else none)

/-- `timingSafeEqual` (sync.ts lines 376-386) over UTF-16 code units
(`charCodeAt`): mismatched lengths return `false` immediately, otherwise the
per-index XOR differences are OR-accumulated and compared with zero. -/
def timingSafeEqual (a b : List Nat) : Bool :=
  if a.length != b.length then false
  else ((a.zip b).foldl (fun r p => r ||| (p.1 ^^^ p.2)) 0) == 0

theorem char_toNat_lt_110000 (c : Char) : c.toNat < 0x110000 := by
  rcases c.valid with h | ⟨_, h⟩
  · exact Nat.lt_trans h (by norm_num)
  · exact h

theorem utf8DecodeGo_one (fuel b0 : Nat) (t0 : List Nat) (h : b0 < 0x80) :
    utf8DecodeGo (fuel + 1) (b0 :: t0) = Char.ofNat b0 :: utf8DecodeGo fuel t0 := by
  simp [utf8DecodeGo, h]

theorem utf8DecodeGo_two (fuel b0 b1 : Nat) (t1 : List Nat)
    (h0 : 0xC0 ≤ b0) (h0' : b0 < 0xE0) (h1 : 0x80 ≤ b1) (h1' : b1 < 0xC0) :
    utf8DecodeGo (fuel + 1) (b0 :: b1 :: t1) =
      Char.ofNat ((b0 - 0xC0) * 0x40 + (b1 - 0x80)) :: utf8DecodeGo fuel t1 := by
  have hn0 : ¬ b0 < 0x80 := by omega
  have hn1 : ¬ b0 < 0xC0 := by omega
  simp [utf8DecodeGo, hn0, hn1, h0', h1, h1']

theorem utf8DecodeGo_three (fuel b0 b1 b2 : Nat) (t2 : List Nat)
    (h0 : 0xE0 ≤ b0) (h0' : b0 < 0xF0) (h1 : 0x80 ≤ b1) (h1' : b1 < 0xC0)
    (h2 : 0x80 ≤ b2) (h2' : b2 < 0xC0) :
    utf8DecodeGo (fuel + 1) (b0 :: b1 :: b2 :: t2) =
      Char.ofNat ((b0 - 0xE0) * 0x1000 + (b1 - 0x80) * 0x40 + (b2 - 0x80)) ::
        utf8DecodeGo fuel t2 := by
  have hn0 : ¬ b0 < 0x80 := by omega
  have hn1 : ¬ b0 < 0xC0 := by omega
  have hn2 : ¬ b0 < 0xE0 := by omega
  simp [utf8DecodeGo, hn0, hn1, hn2, h0', h1, h1', h2, h2']

theorem utf8DecodeGo_four (fuel b0 b1 b2 b3 : Nat) (t3 : List Nat)
    (h0 : 0xF0 ≤ b0) (h0' : b0 < 0xF8) (h1 : 0x80 ≤ b1) (h1' : b1 < 0xC0)
    (h2 : 0x80 ≤ b2) (h2' : b2 < 0xC0) (h3 : 0x80 ≤ b3) (h3' : b3 < 0xC0) :
    utf8DecodeGo (fuel + 1) (b0 :: b1 :: b2 :: b3 :: t3) =
      Char.ofNat
          ((b0 - 0xF0) * 0x40000 + (b1 - 0x80) * 0x1000 + (b2 - 0x80) * 0x40 + (b3 - 0x80)) ::
        utf8DecodeGo fuel t3 := by
  have hn0 : ¬ b0 < 0x80 := by omega
  have hn1 : ¬ b0 < 0xC0 := by omega
  have hn2 : ¬ b0 < 0xE0 := by omega
  have hn3 : ¬ b0 < 0xF0 := by omega
  simp [utf8DecodeGo, hn0, hn1, hn2, hn3, h0', h1, h1', h2, h2', h3, h3']

theorem utf8DecodeGo_encode (cs : List Char) : ∀ fuel, (cs.flatMap utf8Bytes).length ≤ fuel →
    utf8DecodeGo fuel (cs.flatMap utf8Bytes) = cs := by
  induction cs with
  | nil => intro fuel _; cases fuel <;> simp [utf8DecodeGo]
  | cons c cs ih =>
    intro fuel hf
    rw [List.flatMap_cons] at hf ⊢
    by_cases hc1 : c.toNat < 0x80
    · have hb : utf8Bytes c = [c.toNat] := by simp [utf8Bytes, hc1]
      rw [hb] at hf ⊢
      simp only [List.length_append, List.length_cons, List.length_nil] at hf
      obtain ⟨f, rfl⟩ : ∃ f, fuel = f + 1 := ⟨fuel - 1, by omega⟩
      simp only [List.cons_append, List.nil_append]
      rw [utf8DecodeGo_one _ _ _ hc1, Char.ofNat_toNat, ih f (by omega)]
    · by_cases hc2 : c.toNat < 0x800
      · have hb : utf8Bytes c = [0xC0 + c.toNat / 0x40, 0x80 + c.toNat % 0x40] := by
          simp [utf8Bytes, hc1, hc2]
        rw [hb] at hf ⊢
        simp only [List.length_append, List.length_cons, List.length_nil] at hf
        obtain ⟨f, rfl⟩ : ∃ f, fuel = f + 1 := ⟨fuel - 1, by omega⟩
        simp only [List.cons_append, List.nil_append]
        rw [utf8DecodeGo_two f _ _ _ (by omega) (by omega) (by omega) (by omega)]
        have hv : (0xC0 + c.toNat / 0x40 - 0xC0) * 0x40 + (0x80 + c.toNat % 0x40 - 0x80) =
            c.toNat := by omega
        rw [hv, Char.ofNat_toNat, ih f (by omega)]
      · by_cases hc3 : c.toNat < 0x10000
        · have hb : utf8Bytes c =
              [0xE0 + c.toNat / 0x1000, 0x80 + c.toNat / 0x40 % 0x40, 0x80 + c.toNat % 0x40] := by
            simp [utf8Bytes, hc1, hc2, hc3]
          rw [hb] at hf ⊢
          simp only [List.length_append, List.length_cons, List.length_nil] at hf
          obtain ⟨f, rfl⟩ : ∃ f, fuel = f + 1 := ⟨fuel - 1, by omega⟩
          simp only [List.cons_append, List.nil_append]
          rw [utf8DecodeGo_three f _ _ _ _ (by omega) (by omega) (by omega) (by omega)
            (by omega) (by omega)]
          have hv : (0xE0 + c.toNat / 0x1000 - 0xE0) * 0x1000 +
              (0x80 + c.toNat / 0x40 % 0x40 - 0x80) * 0x40 + (0x80 + c.toNat % 0x40 - 0x80) =
              c.toNat := by omega
          rw [hv, Char.ofNat_toNat, ih f (by omega)]
        · have hc4 : c.toNat < 0x110000 := char_toNat_lt_110000 c
          have hb : utf8Bytes c =
              [0xF0 + c.toNat / 0x40000, 0x80 + c.toNat / 0x1000 % 0x40,
                0x80 + c.toNat / 0x40 % 0x40, 0x80 + c.toNat % 0x40] := by
            simp [utf8Bytes, hc1, hc2, hc3]
          rw [hb] at hf ⊢
          simp only [List.length_append, List.length_cons, List.length_nil] at hf
          obtain ⟨f, rfl⟩ : ∃ f, fuel = f + 1 := ⟨fuel - 1, by omega⟩
          simp only [List.cons_append, List.nil_append]
          rw [utf8DecodeGo_four f _ _ _ _ _ (by omega) (by omega) (by omega) (by omega)
            (by omega) (by omega) (by omega) (by omega)]
          have hv : (0xF0 + c.toNat / 0x40000 - 0xF0) * 0x40000 +
              (0x80 + c.toNat / 0x1000 % 0x40 - 0x80) * 0x1000 +
              (0x80 + c.toNat / 0x40 % 0x40 - 0x80) * 0x40 + (0x80 + c.toNat % 0x40 - 0x80) =
              c.toNat := by omega
          rw [hv, Char.ofNat_toNat, ih f (by omega)]

theorem utf8Decode_utf8Encode (s : String) : utf8Decode (utf8Encode s) = s := by
  unfold utf8Decode utf8Encode
  rw [utf8DecodeGo_encode s.data _ (Nat.le_refl _)]

theorem chopGo_flatten (fuel : Nat) :
    ∀ l : List Nat, l.length ≤ fuel → (chopGo fuel l).flatMap id = l := by
  induction fuel with
  | zero =>
    intro l h
    have hl : l = [] := List.length_eq_zero.mp (Nat.le_zero.mp h)
    subst hl
    simp [chopGo]
  | succ f ih =>
    intro l h
    match l with
    | [] => simp [chopGo]
    | b :: t =>
      have hM : MAX_MESSAGE_SIZE = 1048575 := rfl
      rw [chopGo]
      simp only [List.flatMap_cons, id]
      rw [ih ((b :: t).drop MAX_MESSAGE_SIZE) (by
        simp only [List.length_drop, List.length_cons]
        simp only [List.length_cons] at h
        omega)]
      exact List.take_append_drop _ _

theorem chop_flatten (l : List Nat) : (chop l).flatMap id = l :=
  chopGo_flatten _ l (Nat.le_refl _)

theorem chopGo_mem (fuel : Nat) :
    ∀ (l c : List Nat), c ∈ chopGo fuel l → c ≠ [] ∧ c.length ≤ MAX_MESSAGE_SIZE := by
  induction fuel with
  | zero => intro l c hc; simp [chopGo] at hc
  | succ f ih =>
    intro l c hc
    match l with
    | [] => simp [chopGo] at hc
    | b :: t =>
      rw [chopGo] at hc
      rcases List.mem_cons.mp hc with h | h
      · subst h
        have hM : MAX_MESSAGE_SIZE = 1048575 := rfl
        constructor
        · simp [List.take_cons, hM]
        · exact Nat.le_trans (List.length_take_le _ _) (Nat.le_refl _)
      · exact ih _ _ h

theorem chop_eq_nil_iff (l : List Nat) : chop l = [] ↔ l = [] := by
  cases l with
  | nil => simp [chop, chopGo]
  | cons b t =>
    simp only [chop, List.length_cons, chopGo]
    constructor
    · intro h; cases h
    · intro h; cases h

theorem getUint32LE_le32_append (n : Nat) (rest : List Nat) :
    getUint32LE (le32 n ++ rest) = n % 4294967296 := by
  simp only [getUint32LE, le32, List.cons_append, List.nil_append, List.getD_cons_zero,
    List.getD_cons_succ]
  omega

theorem findCompleteGo_none (sid : String) (expected : Int) :
    ∀ (rest : List (List Nat)) (total : Int) (i : Nat),
      (∀ k, k ≤ rest.length → total + (((rest.take k).map List.length).sum : Int) < expected) →
      findCompleteGo sid expected total i rest = .ok none := by
  intro rest
  induction rest with
  | nil => intro total i _; rfl
  | cons cur r ih =>
    intro total i h
    have h1 := h 1 (by simp)
    simp only [List.take_succ_cons, List.take_zero, List.map_cons, List.map_nil, List.sum_cons,
      List.sum_nil] at h1
    rw [findCompleteGo]
    rw [if_neg (by push_cast at h1 ⊢; omega), if_neg (by push_cast at h1 ⊢; omega)]
    apply ih
    intro k hk
    have h2 := h (k + 1) (by simp; omega)
    simp only [List.take_succ_cons, List.map_cons, List.sum_cons] at h2
    push_cast at h2 ⊢
    omega

theorem findCompleteGo_exact (sid : String) (expected : Int) :
    ∀ (j : Nat) (rest : List (List Nat)) (total : Int) (i : Nat),
      j < rest.length →
      (∀ k, k ≤ j → total + (((rest.take k).map List.length).sum : Int) < expected) →
      total + (((rest.take (j + 1)).map List.length).sum : Int) = expected →
      findCompleteGo sid expected total i rest = .ok (some (i + j)) := by
  intro j
  induction j with
  | zero =>
    intro rest total i hj hlt heq
    match rest with
    | cur :: r =>
      simp only [List.take_succ_cons, List.take_zero, List.map_cons, List.map_nil, List.sum_cons,
        List.sum_nil] at heq
      rw [findCompleteGo]
      rw [if_neg (by push_cast at heq ⊢; omega), if_pos (by push_cast at heq ⊢; omega)]
      norm_num
  | succ j ih =>
    intro rest total i hj hlt heq
    match rest with
    | cur :: r =>
      have h1 := hlt 1 (by omega)
      simp only [List.take_succ_cons, List.take_zero, List.map_cons, List.map_nil, List.sum_cons,
        List.sum_nil] at h1
      rw [findCompleteGo]
      rw [if_neg (by push_cast at h1 ⊢; omega), if_neg (by push_cast at h1 ⊢; omega)]
      have hres := ih r (total + (cur.length : Int)) (i + 1)
        (by simp only [List.length_cons] at hj; omega)
        (by
          intro k hk
          have h2 := hlt (k + 1) (by omega)
          simp only [List.take_succ_cons, List.map_cons, List.sum_cons] at h2
          push_cast at h2 ⊢
          omega)
        (by
          simp only [List.take_succ_cons, List.map_cons, List.sum_cons] at heq
          push_cast at heq ⊢
          omega)
      have hidx : i + (j + 1) = i + 1 + j := by omega
      rw [hidx]
      exact hres

theorem findCompleteGo_overflow (sid : String) (expected : Int) :
    ∀ (j : Nat) (rest : List (List Nat)) (total : Int) (i : Nat),
      j < rest.length →
      (∀ k, k ≤ j → total + (((rest.take k).map List.length).sum : Int) < expected) →
      expected < total + (((rest.take (j + 1)).map List.length).sum : Int) →
      findCompleteGo sid expected total i rest = .error (protocolViolationMsg sid) := by
  intro j
  induction j with
  | zero =>
    intro rest total i hj hlt hgt
    match rest with
    | cur :: r =>
      simp only [List.take_succ_cons, List.take_zero, List.map_cons, List.map_nil, List.sum_cons,
        List.sum_nil] at hgt
      rw [findCompleteGo]
      rw [if_pos (by push_cast at hgt ⊢; omega)]
  | succ j ih =>
    intro rest total i hj hlt hgt
    match rest with
    | cur :: r =>
      have h1 := hlt 1 (by omega)
      simp only [List.take_succ_cons, List.take_zero, List.map_cons, List.map_nil, List.sum_cons,
        List.sum_nil] at h1
      rw [findCompleteGo]
      rw [if_neg (by push_cast at h1 ⊢; omega), if_neg (by push_cast at h1 ⊢; omega)]
      exact ih r (total + (cur.length : Int)) (i + 1)
        (by simp only [List.length_cons] at hj; omega)
        (by
          intro k hk
          have h2 := hlt (k + 1) (by omega)
          simp only [List.take_succ_cons, List.map_cons, List.sum_cons] at h2
          push_cast at h2 ⊢
          omega)
        (by
          simp only [List.take_succ_cons, List.map_cons, List.sum_cons] at hgt
          push_cast at hgt ⊢
          omega)

theorem chunksToMessage_no_completion (first : List Nat) (r : List (List Nat)) (sid : String)
    (h4 : ¬ first.length < HEADER_SIZE)
    (h : ∀ k, k ≤ (first :: r).length → prefTotal (first :: r) k < (getUint32LE first : Int)) :
    chunksToMessage (first :: r) sid = .ok (none, first :: r) := by
  have hfc := findCompleteGo_none sid (getUint32LE first : Int) (first :: r)
    (-(HEADER_SIZE : Int)) 0 (fun k hk => by
      have hp := h k hk
      simp only [prefTotal] at hp
      omega)
  simp only [chunksToMessage, if_neg h4, hfc]

theorem chunksToMessage_exact (first : List Nat) (r : List (List Nat)) (sid : String) (i : Nat)
    (h4 : ¬ first.length < HEADER_SIZE)
    (hi : i < (first :: r).length)
    (hlt : ∀ k, k ≤ i → prefTotal (first :: r) k < (getUint32LE first : Int))
    (heq : prefTotal (first :: r) (i + 1) = (getUint32LE first : Int)) :
    chunksToMessage (first :: r) sid =
      .ok (some (utf8Decode
          (first.drop HEADER_SIZE ++ (((first :: r).take (i + 1)).drop 1).flatMap id)),
        (first :: r).drop (i + 1)) := by
  have hfc := findCompleteGo_exact sid (getUint32LE first : Int) i (first :: r)
    (-(HEADER_SIZE : Int)) 0 hi
    (fun k hk => by
      have hp := hlt k hk
      simp only [prefTotal] at hp
      omega)
    (by
      have hp := heq
      simp only [prefTotal] at hp
      omega)
  simp only [chunksToMessage, if_neg h4, hfc]
  norm_num

theorem chunksToMessage_overflow (first : List Nat) (r : List (List Nat)) (sid : String) (i : Nat)
    (h4 : ¬ first.length < HEADER_SIZE)
    (hi : i < (first :: r).length)
    (hlt : ∀ k, k ≤ i → prefTotal (first :: r) k < (getUint32LE first : Int))
    (hgt : (getUint32LE first : Int) < prefTotal (first :: r) (i + 1)) :
    chunksToMessage (first :: r) sid = .error (protocolViolationMsg sid) := by
  have hfc := findCompleteGo_overflow sid (getUint32LE first : Int) i (first :: r)
    (-(HEADER_SIZE : Int)) 0 hi
    (fun k hk => by
      have hp := hlt k hk
      simp only [prefTotal] at hp
      omega)
    (by
      have hp := hgt
      simp only [prefTotal] at hp
      omega)
  simp only [chunksToMessage, if_neg h4, hfc]

deriving instance DecidableEq for Except

/-- C2 (as frozen) is false: a queue whose running total exceeds the declared
length at a later prefix, after an earlier prefix already matched it exactly,
yields a completed message rather than a protocol-violation failure.  Here the
declared length is 0, the running total at prefix 2 is 1 > 0, yet the decode
returns the empty message and leaves the extra chunk queued. -/
theorem c2_counterexample :
    (getUint32LE (([[0, 0, 0, 0], [1]] : List (List Nat)).headD []) : Int) <
        prefTotal [[0, 0, 0, 0], [1]] 2 ∧
    chunksToMessage [[0, 0, 0, 0], [1]] "session" = .ok (some "", [[1]]) := by
  constructor
  · decide
  · decide

/-- C2 (amended): if the running total strictly exceeds the declared length at
some prefix and no earlier prefix matched the declared length exactly, then
`chunksToMessage` raises the protocol-violation failure and returns no
message.  (The first chunk must hold the 4-byte header for the declared
length to be read at all; see C9.) -/
theorem c2_overflow_raises (chunks : List (List Nat)) (sid : String) (k : Nat)
    (h4 : HEADER_SIZE ≤ (chunks.headD []).length)
    (hk : k ≤ chunks.length)
    (hover : (getUint32LE (chunks.headD []) : Int) < prefTotal chunks k)
    (hne : ∀ j, j < k → prefTotal chunks j ≠ (getUint32LE (chunks.headD []) : Int)) :
    chunksToMessage chunks sid = .error (protocolViolationMsg sid) := by
  have hH : (HEADER_SIZE : Int) = 4 := rfl
  cases chunks with
  | nil =>
    exfalso
    have hk0 : k = 0 := by simpa using hk
    subst hk0
    have hp0 : prefTotal [] 0 = -(HEADER_SIZE : Int) := by simp [prefTotal]
    rw [hp0] at hover
    have hexp : (0 : Int) ≤ (getUint32LE (([] : List (List Nat)).headD []) : Int) :=
      Int.ofNat_nonneg _
    omega
  | cons first r =>
    simp only [List.headD_cons] at h4 hover hne
    have hp0 : prefTotal (first :: r) 0 = -(HEADER_SIZE : Int) := by simp [prefTotal]
    have hexp : (0 : Int) ≤ (getUint32LE first : Int) := Int.ofNat_nonneg _
    have hex : ∃ m, (getUint32LE first : Int) < prefTotal (first :: r) m := ⟨k, hover⟩
    have hm := Nat.find_spec hex
    have hmin : ∀ j, j < Nat.find hex →
        ¬ (getUint32LE first : Int) < prefTotal (first :: r) j :=
      fun j hj => Nat.find_min hex hj
    have hmk : Nat.find hex ≤ k := Nat.find_min' hex hover
    have hm1 : 1 ≤ Nat.find hex := by
      by_contra hcon
      have h0 : Nat.find hex = 0 := by omega
      rw [h0, hp0] at hm
      omega
    have hfr : (Nat.find hex - 1) < (first :: r).length := by
      simp only [List.length_cons]
      simp only [List.length_cons] at hk
      omega
    apply chunksToMessage_overflow first r sid (Nat.find hex - 1) (by omega) hfr
    · intro j hj
      have hj1 : j < Nat.find hex := by omega
      have hne' := hne j (by omega)
      have hnlt := hmin j hj1
      omega
    · have hck : Nat.find hex - 1 + 1 = Nat.find hex := by omega
      rw [hck]
      exact hm

/-- C2 witness input: declared length 5, chunk lengths 4, 3, 3; the running
total is -4, 0, 3, 6 — it never equals 5 and exceeds it at prefix 3. -/
theorem c2_witness :
    HEADER_SIZE ≤ (([[5, 0, 0, 0], [1, 2, 3], [9, 9, 9]] : List (List Nat)).headD []).length ∧
    chunksToMessage [[5, 0, 0, 0], [1, 2, 3], [9, 9, 9]] "sess" =
      .error (protocolViolationMsg "sess") :=
  ⟨by decide,
    c2_overflow_raises [[5, 0, 0, 0], [1, 2, 3], [9, 9, 9]] "sess" 3 (by decide) (by decide)
      (by decide) (by decide)⟩

/-- C5 (as frozen) is false in one corner: with a trailing zero-length chunk
the running total also equals the declared length at the later index 1
(prefTotal 2 = 0 = declared), but the decode completes at index 0 and leaves
the zero-length chunk queued — chunks 0 through 1 are not all removed. -/
theorem c5_counterexample :
    prefTotal [[0, 0, 0, 0], []] 2 =
        (getUint32LE (([[0, 0, 0, 0], []] : List (List Nat)).headD []) : Int) ∧
    chunksToMessage [[0, 0, 0, 0], []] "session" = .ok (some "", [[]]) := by
  constructor
  · decide
  · decide

/-- C5 (amended): provided the first queued chunk holds the 4-byte header, an
empty queue or a queue in which no prefix reaches the declared length yields
"no message yet" with the queue untouched; and at the FIRST index `i` whose
running total equals the declared length (every shorter prefix strictly
below it), exactly chunks 0..i are consumed, the header is stripped from the
first, their bytes are decoded as one message, and chunks after `i` remain
queued. -/
theorem c5_partial_buffering (chunks : List (List Nat)) (sid : String)
    (h4 : chunks = [] ∨ HEADER_SIZE ≤ (chunks.headD []).length) :
    (chunks = [] → chunksToMessage chunks sid = .ok (none, [])) ∧
    ((∀ k, k ≤ chunks.length →
        prefTotal chunks k < (getUint32LE (chunks.headD []) : Int)) →
      chunksToMessage chunks sid = .ok (none, chunks)) ∧
    (∀ i, i < chunks.length →
      (∀ k, k ≤ i → prefTotal chunks k < (getUint32LE (chunks.headD []) : Int)) →
      prefTotal chunks (i + 1) = (getUint32LE (chunks.headD []) : Int) →
      chunksToMessage chunks sid =
        .ok (some (utf8Decode ((chunks.headD []).drop HEADER_SIZE ++
              ((chunks.take (i + 1)).drop 1).flatMap id)),
          chunks.drop (i + 1))) := by
  cases chunks with
  | nil =>
    refine ⟨fun _ => rfl, fun _ => rfl, ?_⟩
    intro i hi
    simp at hi
  | cons first r =>
    have h4' : ¬ first.length < HEADER_SIZE := by
      rcases h4 with h | h
      · cases h
      · simp only [List.headD_cons] at h
        omega
    refine ⟨fun h => (nomatch h), ?_, ?_⟩
    · intro h
      simp only [List.headD_cons] at h
      exact chunksToMessage_no_completion first r sid h4' h
    · intro i hi hlt heq
      simp only [List.headD_cons] at hlt heq ⊢
      exact chunksToMessage_exact first r sid i h4' hi hlt heq

/-- C5 witness: one chunk of a two-chunk message yields "no message yet" with
the queue kept; the completing chunk then yields exactly the one-byte message
"A" and an empty queue. -/
theorem c5_witness :
    chunksToMessage [[1, 0, 0, 0]] "session" = .ok (none, [[1, 0, 0, 0]]) ∧
    chunksToMessage [[1, 0, 0, 0], [65]] "session" = .ok (some "A", []) := by
  constructor
  · exact (c5_partial_buffering [[1, 0, 0, 0]] "session" (by decide)).2.1 (by decide)
  · exact ((c5_partial_buffering [[1, 0, 0, 0], [65]] "session" (by decide)).2.2 1 (by decide)
      (by decide) (by decide)).trans (by decide)

/-- C9: a non-empty queue whose first chunk holds fewer than the 4 header
bytes makes the little-endian length read out of bounds: `chunksToMessage`
fails with the `DataView` range error instead of returning "no message yet". -/
theorem c9_short_first_chunk (first : List Nat) (r : List (List Nat)) (sid : String)
    (h : first.length < HEADER_SIZE) :
    chunksToMessage (first :: r) sid = .error rangeErrorMsg := by
  simp only [chunksToMessage, if_pos h]

/-- C9 witness: a single 2-byte first chunk. -/
theorem c9_witness :
    ([1, 2] : List Nat).length < HEADER_SIZE ∧
    chunksToMessage [[1, 2]] "session" = .error rangeErrorMsg :=
  ⟨by decide, c9_short_first_chunk [1, 2] [] "session" (by decide)⟩

/-- C10: when the decoder completes a message of declared payload length 0 it
returns the empty string and consumes the queued chunks (second conjunct:
the 4-byte header alone decodes to `""` with nothing left queued), but the
bridge guard `if (message)` treats the empty string as falsy, so
`handleBrowserMessage` forwards nothing to the client. -/
theorem c10_zero_length_not_forwarded (queue : List (List Nat)) (data : List Nat)
    (sid : String) (rest : List (List Nat)) :
    (chunksToMessage (queue ++ [data]) sid = .ok (some "", rest) →
      handleBrowserMessage queue data sid = (rest, none)) ∧
    chunksToMessage [le32 0] sid = .ok (some "", []) := by
  constructor
  · intro h
    simp [handleBrowserMessage, h, jsTruthy]
  · rfl

/-- C10 witness: the encoding of the empty message is the bare header, which
decodes to the empty string, and the bridge forwards nothing. -/
theorem c10_witness :
    messageToChunks "" = [le32 0] ∧
    chunksToMessage ([] ++ [[0, 0, 0, 0]]) "session" = .ok (some "", []) ∧
    handleBrowserMessage [] [0, 0, 0, 0] "session" = ([], none) :=
  ⟨by decide, by decide,
    (c10_zero_length_not_forwarded [] [0, 0, 0, 0] "session" []).1 (by decide)⟩

theorem getUint32LE_header (n : Nat) (rest : List Nat) (h : n < 4294967296) :
    getUint32LE (le32 n ++ rest) = n := by
  rw [getUint32LE_le32_append]
  exact Nat.mod_eq_of_lt h

theorem chopGo_ne_nil (fuel : Nat) (l : List Nat) (h1 : l ≠ []) (h2 : l.length ≤ fuel) :
    chopGo fuel l ≠ [] := by
  cases fuel with
  | zero =>
    exfalso
    exact h1 (List.length_eq_zero.mp (Nat.le_zero.mp h2))
  | succ f =>
    cases l with
    | nil => exact absurd rfl h1
    | cons b t => simp [chopGo]

theorem findCompleteGo_chopGo (sid : String) (expected : Int) :
    ∀ (fuel : Nat) (l : List Nat) (total : Int) (i : Nat), l ≠ [] → l.length ≤ fuel →
      expected = total + l.length →
      findCompleteGo sid expected total i (chopGo fuel l) =
        .ok (some (i + (chopGo fuel l).length - 1)) := by
  intro fuel
  induction fuel with
  | zero =>
    intro l total i h1 h2 _
    exact absurd (List.length_eq_zero.mp (Nat.le_zero.mp h2)) h1
  | succ f ih =>
    intro l total i h1 h2 he
    match l with
    | b :: t =>
      have hM : MAX_MESSAGE_SIZE = 1048575 := rfl
      rw [chopGo]
      rw [findCompleteGo]
      have htake : ((b :: t).take MAX_MESSAGE_SIZE).length =
          min MAX_MESSAGE_SIZE (b :: t).length := List.length_take _ _
      by_cases hss : (b :: t).length ≤ MAX_MESSAGE_SIZE
      · have hmin : min MAX_MESSAGE_SIZE (b :: t).length = (b :: t).length := by omega
        have hdrop : (b :: t).drop MAX_MESSAGE_SIZE = [] := List.drop_of_length_le hss
        rw [if_neg (by rw [htake, hmin]; omega), if_pos (by rw [htake, hmin]; omega)]
        rw [hdrop]
        have hnil : chopGo f ([] : List Nat) = [] := by cases f <;> rfl
        rw [hnil]
        norm_num
      · have hmin : min MAX_MESSAGE_SIZE (b :: t).length = MAX_MESSAGE_SIZE := by omega
        have hlen : ((b :: t).drop MAX_MESSAGE_SIZE).length =
            (b :: t).length - MAX_MESSAGE_SIZE := List.length_drop _ _
        have hgt : (MAX_MESSAGE_SIZE : Int) < (b :: t).length := by
          omega
        rw [if_neg (by rw [htake, hmin]; omega), if_neg (by rw [htake, hmin]; omega)]
        have hne : (b :: t).drop MAX_MESSAGE_SIZE ≠ [] := by
          intro hcon
          rw [hcon] at hlen
          simp only [List.length_nil] at hlen
          simp only [hM] at hlen hss
          omega
        have hfl : ((b :: t).drop MAX_MESSAGE_SIZE).length ≤ f := by
          rw [hlen]
          simp only [List.length_cons] at h2 ⊢
          simp only [hM]
          omega
        have hrec := ih ((b :: t).drop MAX_MESSAGE_SIZE)
          (total + (((b :: t).take MAX_MESSAGE_SIZE).length : Int)) (i + 1) hne hfl
          (by rw [htake, hmin, hlen]; omega)
        rw [hrec]
        have hK := chopGo_ne_nil f ((b :: t).drop MAX_MESSAGE_SIZE) hne hfl
        have hK1 : 1 ≤ (chopGo f ((b :: t).drop MAX_MESSAGE_SIZE)).length :=
          List.length_pos.mpr hK
        congr 1
        congr 1
        simp only [List.length_cons]
        omega

/-- C1 (amended): for every message whose UTF-8 encoding is shorter than 2^32
bytes (so the length fits the unsigned 32-bit header), decoding the chunk
sequence produced by encoding yields exactly the message and consumes all of
the chunks. -/
theorem c1_round_trip (M : String) (sid : String)
    (hlen : (utf8Encode M).length < 4294967296) :
    chunksToMessage (messageToChunks M) sid = .ok (some M, []) := by
  have hH : HEADER_SIZE = 4 := rfl
  have hF : FIRST_CHUNK_DATA_SIZE = 1048571 := rfl
  rw [messageToChunks]
  by_cases hc : (utf8Encode M).length ≤ FIRST_CHUNK_DATA_SIZE
  · -- single-chunk case
    rw [List.take_of_length_le hc, List.drop_of_length_le hc]
    have hchop : chop ([] : List Nat) = [] := rfl
    rw [hchop]
    have hfl : (le32 (utf8Encode M).length ++ utf8Encode M).length =
        4 + (utf8Encode M).length := by
      simp [le32]
      omega
    have h4' : ¬ (le32 (utf8Encode M).length ++ utf8Encode M).length < HEADER_SIZE := by
      rw [hfl, hH]
      omega
    have hget : getUint32LE (le32 (utf8Encode M).length ++ utf8Encode M) =
        (utf8Encode M).length := getUint32LE_header _ _ hlen
    have hres := chunksToMessage_exact (le32 (utf8Encode M).length ++ utf8Encode M) [] sid 0
      h4' (by simp)
      (fun k hk => by
        have hk0 : k = 0 := Nat.le_zero.mp hk
        subst hk0
        simp only [prefTotal, List.take_zero, List.map_nil, List.sum_nil, hget, hH]
        omega)
      (by
        simp only [prefTotal, List.take_succ_cons, List.take_zero, List.map_cons, List.map_nil,
          List.sum_cons, List.sum_nil, hget, hfl, hH]
        push_cast
        omega)
    rw [hres]
    have hdrop4 : (le32 (utf8Encode M).length ++ utf8Encode M).drop HEADER_SIZE =
        utf8Encode M := List.drop_left' rfl
    simp only [hdrop4, List.take_succ_cons, List.take_zero, List.drop_succ_cons,
      List.drop_nil, List.flatMap_nil, List.append_nil, utf8Decode_utf8Encode]
  · -- multi-chunk case
    have hc' : FIRST_CHUNK_DATA_SIZE < (utf8Encode M).length := Nat.lt_of_not_le hc
    have htlen : ((utf8Encode M).drop FIRST_CHUNK_DATA_SIZE).length =
        (utf8Encode M).length - FIRST_CHUNK_DATA_SIZE := List.length_drop _ _
    have htne : (utf8Encode M).drop FIRST_CHUNK_DATA_SIZE ≠ [] := by
      intro hcon
      rw [hcon] at htlen
      simp only [List.length_nil] at htlen
      omega
    have hfirstlen :
        (le32 (utf8Encode M).length ++ (utf8Encode M).take FIRST_CHUNK_DATA_SIZE).length =
          4 + FIRST_CHUNK_DATA_SIZE := by
      simp only [List.length_append, List.length_take, le32, List.length_cons, List.length_nil]
      omega
    have h4' :
        ¬ (le32 (utf8Encode M).length ++ (utf8Encode M).take FIRST_CHUNK_DATA_SIZE).length <
          HEADER_SIZE := by
      rw [hfirstlen, hH]
      omega
    have hget :
        getUint32LE (le32 (utf8Encode M).length ++ (utf8Encode M).take FIRST_CHUNK_DATA_SIZE) =
          (utf8Encode M).length := getUint32LE_header _ _ hlen
    have hscan :
        findCompleteGo sid
            ((getUint32LE
              (le32 (utf8Encode M).length ++ (utf8Encode M).take FIRST_CHUNK_DATA_SIZE) : Nat) :
              Int)
            (-(HEADER_SIZE : Int)) 0
            ((le32 (utf8Encode M).length ++ (utf8Encode M).take FIRST_CHUNK_DATA_SIZE) ::
              chop ((utf8Encode M).drop FIRST_CHUNK_DATA_SIZE)) =
          .ok (some ((chop ((utf8Encode M).drop FIRST_CHUNK_DATA_SIZE)).length)) := by
      rw [findCompleteGo]
      rw [if_neg (by rw [hget, hfirstlen, hH, hF]; push_cast; omega),
        if_neg (by rw [hget, hfirstlen, hH, hF]; push_cast; omega)]
      rw [chop]
      rw [findCompleteGo_chopGo sid _ _ _ _ 1 htne (Nat.le_refl _)
        (by rw [hget, hfirstlen, htlen, hH, hF]; push_cast; omega)]
      congr 1
      congr 1
      omega
    simp only [chunksToMessage, if_neg h4', hscan]
    have hlen1 :
        ((le32 (utf8Encode M).length ++ (utf8Encode M).take FIRST_CHUNK_DATA_SIZE) ::
          chop ((utf8Encode M).drop FIRST_CHUNK_DATA_SIZE)).length =
          (chop ((utf8Encode M).drop FIRST_CHUNK_DATA_SIZE)).length + 1 := by
      simp
    have htk :
        ((le32 (utf8Encode M).length ++ (utf8Encode M).take FIRST_CHUNK_DATA_SIZE) ::
            chop ((utf8Encode M).drop FIRST_CHUNK_DATA_SIZE)).take
          ((chop ((utf8Encode M).drop FIRST_CHUNK_DATA_SIZE)).length + 1) =
          (le32 (utf8Encode M).length ++ (utf8Encode M).take FIRST_CHUNK_DATA_SIZE) ::
            chop ((utf8Encode M).drop FIRST_CHUNK_DATA_SIZE) :=
      List.take_of_length_le (le_of_eq hlen1)
    have hdk :
        ((le32 (utf8Encode M).length ++ (utf8Encode M).take FIRST_CHUNK_DATA_SIZE) ::
            chop ((utf8Encode M).drop FIRST_CHUNK_DATA_SIZE)).drop
          ((chop ((utf8Encode M).drop FIRST_CHUNK_DATA_SIZE)).length + 1) =
          ([] : List (List Nat)) :=
      List.drop_of_length_le (le_of_eq hlen1)
    rw [htk, hdk]
    simp only [List.drop_succ_cons, List.drop_zero]
    have hdrop4 :
        (le32 (utf8Encode M).length ++ (utf8Encode M).take FIRST_CHUNK_DATA_SIZE).drop
          HEADER_SIZE = (utf8Encode M).take FIRST_CHUNK_DATA_SIZE := List.drop_left' rfl
    rw [hdrop4, chop_flatten, List.take_append_drop, utf8Decode_utf8Encode]

theorem utf8Encode_replicate_a (n : Nat) :
    utf8Encode (String.mk (List.replicate n 'a')) = List.replicate n 97 := by
  show (List.replicate n 'a').flatMap utf8Bytes = List.replicate n 97
  induction n with
  | zero => rfl
  | succ k ih =>
    rw [List.replicate_succ, List.flatMap_cons, ih, List.replicate_succ]
    have ha : utf8Bytes 'a' = [97] := by decide
    rw [ha]
    rfl

/-- C1 (as frozen) is false at a message of exactly 2^32 UTF-8 bytes (2^32
repetitions of "a"): the 32-bit header wraps, the declared length becomes 0,
and the decode of the encoded chunks raises the protocol-violation failure
instead of returning the message.  (This input refutes only the unrestricted
claim; for other lengths of 2^32 or more the behaviour depends on the wrapped
residue and is not characterised here.) -/
theorem c1_counterexample :
    chunksToMessage (messageToChunks (String.mk (List.replicate 4294967296 'a'))) "session" =
      .error (protocolViolationMsg "session") := by
  have hF : FIRST_CHUNK_DATA_SIZE = 1048571 := rfl
  have hH : HEADER_SIZE = 4 := rfl
  have henc := utf8Encode_replicate_a 4294967296
  rw [messageToChunks, henc]
  have hlenr : (List.replicate 4294967296 (97 : Nat)).length = 4294967296 :=
    List.length_replicate _ _
  rw [hlenr]
  have hle : le32 4294967296 = [0, 0, 0, 0] := by decide
  rw [hle]
  have htake : (List.replicate 4294967296 (97 : Nat)).take FIRST_CHUNK_DATA_SIZE =
      List.replicate FIRST_CHUNK_DATA_SIZE 97 := by
    rw [List.take_replicate]
    congr 1
  rw [htake]
  have hfl : (([0, 0, 0, 0] : List Nat) ++ List.replicate FIRST_CHUNK_DATA_SIZE 97).length =
      4 + FIRST_CHUNK_DATA_SIZE := by
    rw [List.length_append, List.length_replicate]
    norm_num
  have hgz : getUint32LE (([0, 0, 0, 0] : List Nat) ++
      List.replicate FIRST_CHUNK_DATA_SIZE 97) = 0 := by
    simp only [getUint32LE, List.cons_append, List.nil_append, List.getD_cons_zero,
      List.getD_cons_succ]
  generalize hp : List.replicate FIRST_CHUNK_DATA_SIZE (97 : Nat) = p
  rw [hp] at hfl hgz
  generalize hr : chop ((List.replicate 4294967296 (97 : Nat)).drop FIRST_CHUNK_DATA_SIZE) = r
  clear henc hlenr hle htake hp hr
  apply chunksToMessage_overflow _ _ "session" 0
  · rw [hfl, hH]
    omega
  · exact List.length_pos.mpr (List.cons_ne_nil _ _)
  · intro k hk
    have hk0 : k = 0 := Nat.le_zero.mp hk
    subst hk0
    simp only [prefTotal, List.take_zero, List.map_nil, List.sum_nil, hgz, hH]
    norm_num
  · simp only [prefTotal, List.take_succ_cons, List.take_zero, List.map_cons, List.map_nil,
      List.sum_cons, List.sum_nil, hgz, hfl, hH, hF]
    push_cast

/-- C1 witness: the one-byte message "a" round-trips: its encoded length is
below 2^32, and decoding its chunks returns "a" with an empty queue. -/
theorem c1_witness :
    (utf8Encode "a").length < 4294967296 ∧
    chunksToMessage (messageToChunks "a") "session" = .ok (some "a", []) :=
  ⟨by decide, c1_round_trip "a" "session" (by decide)⟩

/-- C6: shape of the encoder output.  The first chunk is the 4-byte
little-endian header (holding the UTF-8 byte length written as an unsigned
32-bit integer) followed by up to `FIRST_CHUNK_DATA_SIZE` payload bytes and
never exceeds `MAX_MESSAGE_SIZE`; continuation chunks exist exactly when the
payload exceeds first-chunk capacity, are non-empty raw slices of at most
`MAX_MESSAGE_SIZE` bytes with no header, and concatenate to the remaining
payload in order; a message with `header + payload ≤ MAX_MESSAGE_SIZE` is a
single chunk. -/
theorem c6_encoder_shape (s : String) :
    messageToChunks s ≠ [] ∧
    ((messageToChunks s).headD []).take HEADER_SIZE = le32 (utf8Encode s).length ∧
    ((messageToChunks s).headD []).drop HEADER_SIZE =
      (utf8Encode s).take FIRST_CHUNK_DATA_SIZE ∧
    ((messageToChunks s).headD []).length ≤ MAX_MESSAGE_SIZE ∧
    ((messageToChunks s).drop 1).flatMap id = (utf8Encode s).drop FIRST_CHUNK_DATA_SIZE ∧
    (∀ c ∈ (messageToChunks s).drop 1, c ≠ [] ∧ c.length ≤ MAX_MESSAGE_SIZE) ∧
    ((messageToChunks s).drop 1 = [] ↔ (utf8Encode s).length ≤ FIRST_CHUNK_DATA_SIZE) ∧
    (HEADER_SIZE + (utf8Encode s).length ≤ MAX_MESSAGE_SIZE →
      messageToChunks s = [le32 (utf8Encode s).length ++ utf8Encode s]) := by
  have hH : HEADER_SIZE = 4 := rfl
  have hF : FIRST_CHUNK_DATA_SIZE = 1048571 := rfl
  have hM : MAX_MESSAGE_SIZE = 1048575 := rfl
  refine ⟨?_, ?_, ?_, ?_, ?_, ?_, ?_, ?_⟩
  · simp [messageToChunks]
  · simp only [messageToChunks, List.headD_cons]
    exact List.take_left' rfl
  · simp only [messageToChunks, List.headD_cons]
    exact List.drop_left' rfl
  · simp only [messageToChunks, List.headD_cons, List.length_append, List.length_take, le32,
      List.length_cons, List.length_nil]
    rw [hF, hM]
    omega
  · simp only [messageToChunks, List.drop_succ_cons, List.drop_zero]
    exact chop_flatten _
  · intro c hc
    simp only [messageToChunks, List.drop_succ_cons, List.drop_zero, chop] at hc
    exact chopGo_mem _ _ _ hc
  · simp only [messageToChunks, List.drop_succ_cons, List.drop_zero]
    rw [chop_eq_nil_iff, List.drop_eq_nil_iff]
  · intro h
    have hle : (utf8Encode s).length ≤ FIRST_CHUNK_DATA_SIZE := by
      rw [hF]
      rw [hH, hM] at h
      omega
    simp only [messageToChunks, List.take_of_length_le hle, List.drop_of_length_le hle]
    rfl

/-- C6 witness: the two-byte message "ab" fits in one chunk. -/
theorem c6_witness :
    HEADER_SIZE + (utf8Encode "ab").length ≤ MAX_MESSAGE_SIZE ∧
    messageToChunks "ab" = [le32 (utf8Encode "ab").length ++ utf8Encode "ab"] :=
  ⟨by decide, (c6_encoder_shape "ab").2.2.2.2.2.2.2 (by decide)⟩

theorem or_eq_zero_iff_both (a b : Nat) : a ||| b = 0 ↔ a = 0 ∧ b = 0 := by
  constructor
  · intro h
    constructor
    · apply Nat.eq_of_testBit_eq
      intro i
      have := congrArg (fun n => n.testBit i) h
      simp only [Nat.testBit_or, Nat.zero_testBit, Bool.or_eq_false_iff] at this
      simp [this.1]
    · apply Nat.eq_of_testBit_eq
      intro i
      have := congrArg (fun n => n.testBit i) h
      simp only [Nat.testBit_or, Nat.zero_testBit, Bool.or_eq_false_iff] at this
      simp [this.2]
  · rintro ⟨rfl, rfl⟩
    rfl

theorem tse_foldl (l : List (Nat × Nat)) : ∀ acc : Nat,
    (l.foldl (fun r p => r ||| (p.1 ^^^ p.2)) acc = 0 ↔ acc = 0 ∧ ∀ p ∈ l, p.1 = p.2) := by
  induction l with
  | nil => intro acc; simp
  | cons x xs ih =>
    intro acc
    simp only [List.foldl_cons, ih, List.mem_cons, or_eq_zero_iff_both, Nat.xor_eq_zero]
    constructor
    · rintro ⟨⟨h1, h2⟩, h3⟩
      exact ⟨h1, fun p hp => by
        rcases hp with hp | hp
        · subst hp; exact h2
        · exact h3 p hp⟩
    · rintro ⟨h1, h2⟩
      exact ⟨⟨h1, h2 x (Or.inl rfl)⟩, fun p hp => h2 p (Or.inr hp)⟩

theorem zip_eq_of_pointwise (a b : List Nat) : a.length = b.length →
    (∀ p ∈ a.zip b, p.1 = p.2) → a = b := by
  induction a generalizing b with
  | nil =>
    intro hl _
    cases b with
    | nil => rfl
    | cons y ys => simp at hl
  | cons x xs ih =>
    intro hl hp
    cases b with
    | nil => simp at hl
    | cons y ys =>
      simp only [List.zip_cons_cons, List.mem_cons] at hp
      have hxy : x = y := hp (x, y) (Or.inl rfl)
      have := ih ys (by simpa using hl) (fun p hq => hp p (Or.inr hq))
      rw [hxy, this]

theorem mem_zip_self (b : List Nat) : ∀ p ∈ b.zip b, p.1 = p.2 := by
  induction b with
  | nil => intro p hp; simp at hp
  | cons x xs ih =>
    intro p hp
    simp only [List.zip_cons_cons, List.mem_cons] at hp
    rcases hp with hp | hp
    · subst hp; rfl
    · exact ih p hp

/-- C8: `timingSafeEqual` returns `false` immediately on a length mismatch and
otherwise OR-accumulates the per-index XOR differences, returning `true`
exactly when the two code-unit sequences are equal. -/
theorem c8_timingSafeEqual (a b : List Nat) :
    (a.length ≠ b.length → timingSafeEqual a b = false) ∧
    (timingSafeEqual a b = true ↔ a = b) := by
  constructor
  · intro h
    simp [timingSafeEqual, h]
  · constructor
    · intro h
      by_cases hl : a.length = b.length
      · simp only [timingSafeEqual, hl, bne_self_eq_false, Bool.false_eq_true, if_false,
          beq_iff_eq] at h
        exact zip_eq_of_pointwise a b hl ((tse_foldl _ 0).mp h).2
      · simp [timingSafeEqual, hl] at h
    · intro h
      subst h
      simp only [timingSafeEqual, bne_self_eq_false, Bool.false_eq_true, if_false, beq_iff_eq]
      exact (tse_foldl _ 0).mpr ⟨rfl, mem_zip_self a⟩

/-- C8 witness: strings of differing length compare false; equal strings
compare true. -/
theorem c8_witness :
    timingSafeEqual (strUnits "ab") (strUnits "abc") = false ∧
    timingSafeEqual (strUnits "token") (strUnits "token") = true :=
  ⟨(c8_timingSafeEqual (strUnits "ab") (strUnits "abc")).1 (by decide),
    (c8_timingSafeEqual (strUnits "token") (strUnits "token")).2.mpr rfl⟩

theorem hasSubstring_append (pre needle post : List Nat) :
    hasSubstring (pre ++ (needle ++ post)) needle = true := by
  induction pre with
  | nil =>
    rw [List.nil_append, hasSubstring.eq_def]
    rw [if_pos (List.isPrefixOf_iff_prefix.mpr (List.prefix_append _ _))]
  | cons p pre' ih =>
    rw [List.cons_append, hasSubstring.eq_def]
    split
    · rfl
    · exact ih

/-- C7: the error-message transform is a deterministic first-match-wins
rewrite: a message containing a gateway-token substring becomes the
token instruction embedding `https://` and the current host and a corrected
`?token=` query parameter; otherwise a message containing "pairing required"
becomes the pairing instruction referencing `/_admin/` on the current host;
any other message passes through unchanged, code unit for code unit. -/
theorem c7_transform (message host : List Nat) :
    (hasSubstring message (strUnits "gateway token missing") = true ∨
        hasSubstring message (strUnits "gateway token mismatch") = true →
      transformErrorMessage message host =
        strUnits "Invalid or missing token. Visit https://" ++ host ++
          strUnits "?token=\x7bREPLACE_WITH_YOUR_TOKEN\x7d" ∧
      (∃ pre post, transformErrorMessage message host =
        pre ++ (strUnits "https://" ++ host) ++ post)) ∧
    (hasSubstring message (strUnits "gateway token missing") = false →
      hasSubstring message (strUnits "gateway token mismatch") = false →
      hasSubstring message (strUnits "pairing required") = true →
      transformErrorMessage message host =
        strUnits "Pairing required. Visit https://" ++ host ++ strUnits "/_admin/" ∧
      (∃ pre post, transformErrorMessage message host =
        pre ++ (host ++ strUnits "/_admin/") ++ post)) ∧
    (hasSubstring message (strUnits "gateway token missing") = false →
      hasSubstring message (strUnits "gateway token mismatch") = false →
      hasSubstring message (strUnits "pairing required") = false →
      transformErrorMessage message host = message) := by
  refine ⟨?_, ?_, ?_⟩
  · intro h
    have hcond : (hasSubstring message (strUnits "gateway token missing") ||
        hasSubstring message (strUnits "gateway token mismatch")) = true := by
      rcases h with h | h <;> simp [h]
    constructor
    · simp only [transformErrorMessage, hcond, if_true]
    · refine ⟨strUnits "Invalid or missing token. Visit ",
        strUnits "?token=\x7bREPLACE_WITH_YOUR_TOKEN\x7d", ?_⟩
      simp only [transformErrorMessage, hcond, if_true]
      have : strUnits "Invalid or missing token. Visit https://" =
          strUnits "Invalid or missing token. Visit " ++ strUnits "https://" := by decide
      rw [this]
      simp [List.append_assoc]
  · intro h1 h2 h3
    have hcond : (hasSubstring message (strUnits "gateway token missing") ||
        hasSubstring message (strUnits "gateway token mismatch")) = false := by
      simp [h1, h2]
    constructor
    · simp only [transformErrorMessage, hcond, Bool.false_eq_true, if_false, h3, if_true]
    · refine ⟨strUnits "Pairing required. Visit https://", [], ?_⟩
      simp only [transformErrorMessage, hcond, Bool.false_eq_true, if_false, h3, if_true]
      simp [List.append_assoc]
  · intro h1 h2 h3
    simp only [transformErrorMessage, h1, h2, h3, Bool.or_self, Bool.false_eq_true, if_false]

/-- C7 witness: a token-mismatch message is rewritten to the token
instruction, a pairing message to the pairing instruction, and an unrelated
message passes through unchanged. -/
theorem c7_witness :
    transformErrorMessage (strUnits "gateway token mismatch") (strUnits "example.com") =
      strUnits "Invalid or missing token. Visit https://" ++ strUnits "example.com" ++
        strUnits "?token=\x7bREPLACE_WITH_YOUR_TOKEN\x7d" ∧
    transformErrorMessage (strUnits "pairing required") (strUnits "example.com") =
      strUnits "Pairing required. Visit https://" ++ strUnits "example.com" ++
        strUnits "/_admin/" ∧
    transformErrorMessage (strUnits "unrelated") (strUnits "example.com") =
      strUnits "unrelated" :=
  ⟨((c7_transform (strUnits "gateway token mismatch") (strUnits "example.com")).1
      (Or.inr (by decide))).1,
    ((c7_transform (strUnits "pairing required") (strUnits "example.com")).2.1
      (by decide) (by decide) (by decide)).1,
    (c7_transform (strUnits "unrelated") (strUnits "example.com")).2.2
      (by decide) (by decide) (by decide)⟩

/-- C3: evaluation at the failing input.  A close reason of 50 euro signs
(U+20AC) is 50 UTF-16 code units, so the `reason.length > 123` truncation
never fires and the relay forwards it unchanged — yet its wire encoding is
150 UTF-8 bytes, above the 123-byte close-frame limit the code's own comment
promises to enforce. -/
theorem c3_reason_truncation_code_bug :
    (List.replicate 50 0x20AC).length ≤ 123 ∧
    forwardCloseReason (List.replicate 50 0x20AC) (strUnits "example.com") =
      List.replicate 50 0x20AC ∧
    utf8LenUnits (forwardCloseReason (List.replicate 50 0x20AC) (strUnits "example.com")) =
      150 ∧ ¬ 150 ≤ 123 := by
  refine ⟨by decide, by decide, by decide, by decide⟩

theorem forwardCloseReason_length (reason host : List Nat) :
    (forwardCloseReason reason host).length ≤ 123 := by
  unfold forwardCloseReason
  split
  · rw [List.length_append, List.length_take]
    have h3 : (strUnits "...").length = 3 := rfl
    rw [h3]
    omega
  · omega

/-- C4 (as frozen) is false: the client→backend direction does not rewrite the
close reason — a "pairing required" reason is forwarded verbatim by the
client-side close handler although the transform would change it. -/
theorem c4_counterexample :
    (relayClose Side.client (strUnits "example.com") 1000 (strUnits "pairing required")).2 =
      strUnits "pairing required" ∧
    forwardCloseReason (strUnits "pairing required") (strUnits "example.com") ≠
      strUnits "pairing required" := by
  refine ⟨rfl, by decide⟩

/-- C4 (amended): both close handlers forward the peer close with the same
numeric close code, but only the backend→client (container) direction rewrites
the reason through the error-message transform and the 123-unit truncation;
the client→backend direction forwards the reason verbatim.  The transformed
reason is always at most 123 UTF-16 code units. -/
theorem c4_close_propagation (host : List Nat) (code : Nat) (reason : List Nat) :
    (relayClose Side.client host code reason).1 = code ∧
    (relayClose Side.container host code reason).1 = code ∧
    (relayClose Side.client host code reason).2 = reason ∧
    (relayClose Side.container host code reason).2 = forwardCloseReason reason host ∧
    ((relayClose Side.container host code reason).2).length ≤ 123 :=
  ⟨rfl, rfl, rfl, rfl, forwardCloseReason_length reason host⟩
